import Mathlib

/-!
Verification of the blast-design calculator (BlastingOverview).

The pattern-layout functions of `src/models/pattern_calculator.py` and the
charge / classification formulas of `src/app.py` are embedded over `ℚ`
(exact rational arithmetic standing for the Python floats).  Python's
`int(...)` conversion truncates toward zero, which is modelled by `pyInt`;
`numpy.linspace` is modelled by `linspace`; the early-return truncation of
the hole-generation loops (`if num_holes is not None and len(...) >=
num_holes: return`) is modelled by `emitHoles`, which mirrors the
append-then-check shape of the loop.  `math.pi` is a double-precision
constant in the source and is embedded as the exact rational value of that
double (`mathPi`).
-/

/-- Python `int(q)`: truncation toward zero. -/
def pyInt (q : ℚ) : ℤ := if 0 ≤ q then ⌊q⌋ else ⌈q⌉

/-- `numpy.linspace a b n`: `n` evenly spaced samples from `a` to `b`
(inclusive); for `n = 1` numpy returns just `[a]`. -/
def linspace (a b : ℚ) (n : ℕ) : List ℚ :=
  if n = 0 then []
  else if n = 1 then [a]
  else (List.range n).map (fun (i : ℕ) => a + (i : ℚ) * ((b - a) / ((n : ℚ) - 1)))

/-- The hole-emission loop shared by both pattern functions: holes are
appended one at a time; directly after each append, if `num_holes` is not
`None` and the number of holes emitted so far reaches it, the loop returns
early.  `count` is the number of holes appended before this call. -/
def emitHoles (numHoles : Option ℤ) : List (ℚ × ℚ) → ℤ → List (ℚ × ℚ)
  | [], _ => []
  | p :: rest, count =>
      p :: (match numHoles with
        | some m => if count + 1 ≥ m then [] else emitHoles numHoles rest (count + 1)
        | none => emitHoles numHoles rest (count + 1))

/-- Result tuple of `calculate_square_pattern`. -/
structure SquarePattern where
  hole_positions_x : List ℚ
  hole_positions_y : List ℚ
  num_rows : ℕ
  holes_per_row : ℕ
  deriving DecidableEq, Repr

/-- `num_rows = max(1, int(width / burden))` from `calculate_square_pattern`
(also used by `calculate_staggered_pattern`). -/
def pattern_num_rows (width burden : ℚ) : ℕ :=
  (max 1 (pyInt (width / burden))).toNat

/-- `holes_per_row = max(1, int(length / spacing))` from
`calculate_square_pattern`. -/
def square_holes_per_row (length spacing : ℚ) : ℕ :=
  (max 1 (pyInt (length / spacing))).toNat

/-- The (x, y) pairs visited by the nested loop of
`calculate_square_pattern`, in loop order: outer loop over
`y_positions = linspace(burden/2, width - burden/2, num_rows)`, inner loop
over `x_positions = linspace(spacing/2, length - spacing/2, holes_per_row)`. -/
def square_hole_pairs (length width burden spacing : ℚ) : List (ℚ × ℚ) :=
  (linspace (burden / 2) (width - burden / 2) (pattern_num_rows width burden)).flatMap
    (fun y =>
      (linspace (spacing / 2) (length - spacing / 2)
        (square_holes_per_row length spacing)).map (fun x => (x, y)))

/-- Embedding of `calculate_square_pattern` (src/models/pattern_calculator.py,
lines 7-45). -/
def calculate_square_pattern (length width burden spacing : ℚ)
    (num_holes : Option ℤ) : SquarePattern :=
  if burden ≤ 0 ∨ spacing ≤ 0 then ⟨[], [], 0, 0⟩
  else
    let holes := emitHoles num_holes (square_hole_pairs length width burden spacing) 0
    ⟨holes.map Prod.fst, holes.map Prod.snd, pattern_num_rows width burden,
      square_holes_per_row length spacing⟩

/-- Result tuple of `calculate_staggered_pattern`. -/
structure StaggeredPattern where
  hole_positions_x : List ℚ
  hole_positions_y : List ℚ
  num_rows : ℕ
  num_holes_per_row_odd : ℕ
  num_holes_per_row_even : ℕ
  deriving DecidableEq, Repr

/-- `max(1, int((length - spacing/2) / spacing) + 1)` from
`calculate_staggered_pattern` (holes in rows of even 0-based index). -/
def num_holes_per_row_odd (length spacing : ℚ) : ℕ :=
  (max 1 (pyInt ((length - spacing / 2) / spacing) + 1)).toNat

/-- `max(1, int((length - spacing) / spacing) + 1)` from
`calculate_staggered_pattern` (holes in rows of odd 0-based index). -/
def num_holes_per_row_even (length spacing : ℚ) : ℕ :=
  (max 1 (pyInt ((length - spacing) / spacing) + 1)).toNat

/-- The per-row x positions of `calculate_staggered_pattern`: rows of even
0-based index use `linspace(spacing/2, length - spacing/2, nOdd)`, rows of
odd 0-based index use `linspace(spacing, length - spacing, nEven)`. -/
def staggered_row_xs (length spacing : ℚ) (nOdd nEven rowIdx : ℕ) : List ℚ :=
  if rowIdx % 2 = 0 then linspace (spacing / 2) (length - spacing / 2) nOdd
  else linspace spacing (length - spacing) nEven

/-- The (x, y) pairs visited by the loop of `calculate_staggered_pattern`, in
loop order: `for row_idx, y_pos in enumerate(y_positions)` (modelled by
zipping the row indices with `y_positions`), inner loop over the row's
x positions. -/
def staggered_hole_pairs (length width burden spacing : ℚ) : List (ℚ × ℚ) :=
  let y_positions := linspace (burden / 2) (width - burden / 2)
    (pattern_num_rows width burden)
  ((List.range y_positions.length).zip y_positions).flatMap (fun iy =>
    (staggered_row_xs length spacing (num_holes_per_row_odd length spacing)
      (num_holes_per_row_even length spacing) iy.1).map (fun x => (x, iy.2)))

/-- Embedding of `calculate_staggered_pattern`
(src/models/pattern_calculator.py, lines 48-97). -/
def calculate_staggered_pattern (length width burden spacing : ℚ)
    (num_holes : Option ℤ) : StaggeredPattern :=
  if burden ≤ 0 ∨ spacing ≤ 0 then ⟨[], [], 0, 0, 0⟩
  else
    let holes := emitHoles num_holes (staggered_hole_pairs length width burden spacing) 0
    ⟨holes.map Prod.fst, holes.map Prod.snd, pattern_num_rows width burden,
      num_holes_per_row_odd length spacing, num_holes_per_row_even length spacing⟩

/-- `calculated_burden = 0.024 * hole_diameter + 0.85` (src/app.py line 194). -/
def calculated_burden (hole_diameter : ℚ) : ℚ := 0.024 * hole_diameter + 0.85

/-- `calculated_subdrilling = 0.4 * calculated_burden` (src/app.py line 231). -/
def calculated_subdrilling (hole_diameter : ℚ) : ℚ :=
  0.4 * calculated_burden hole_diameter

/-- `calculated_stemming = 1.0 * calculated_burden` (src/app.py line 232). -/
def calculated_stemming (hole_diameter : ℚ) : ℚ :=
  1.0 * calculated_burden hole_diameter

/-- `calculated_hole_depth = bench_height + calculated_subdrilling`
(src/app.py line 233). -/
def calculated_hole_depth (bench_height hole_diameter : ℚ) : ℚ :=
  bench_height + calculated_subdrilling hole_diameter

/-- The exact rational value of the IEEE-754 double `math.pi` used by the
source. -/
def mathPi : ℚ := 884279719003555 / 281474976710656

/-- `explosive_column_length = bench_height + calculated_subdrilling -
calculated_stemming` (src/app.py line 712), over the three summands. -/
def explosive_column_length (bench_height subdrilling stemming : ℚ) : ℚ :=
  bench_height + subdrilling - stemming

/-- `available_hole_volume = math.pi * (hole_diameter_m**2) / 4 *
explosive_column_length` (src/app.py line 715). -/
def available_hole_volume (hole_diameter_m column_length : ℚ) : ℚ :=
  mathPi * hole_diameter_m ^ 2 / 4 * column_length

/-- `charge_per_hole = explosive_density * available_hole_volume`
(src/app.py line 718). -/
def charge_per_hole (explosive_density hole_diameter_m column_length : ℚ) : ℚ :=
  explosive_density * available_hole_volume hole_diameter_m column_length

/-- `powder_factor_vol_per_explosive = blast_volume / total_explosive if
total_explosive > 0 else 0` (src/app.py line 724). -/
def powder_factor_vol_per_explosive (blast_volume total_explosive : ℚ) : ℚ :=
  if 0 < total_explosive then blast_volume / total_explosive else 0

/-- `powder_factor_explosive_per_vol = total_explosive / blast_volume if
blast_volume > 0 else 0` (src/app.py line 725). -/
def powder_factor_explosive_per_vol (blast_volume total_explosive : ℚ) : ℚ :=
  if 0 < blast_volume then total_explosive / blast_volume else 0

/-- Rock hardness categories returned by the classification ladder of
src/app.py lines 284-303 (the source uses the display strings "Very Soft",
…, "Very Hard"). -/
inductive RockHardness where
  | VerySoft | Soft | Medium | Hard | VeryHard
  deriving DecidableEq, Repr

/-- The rock-classification ladder (src/app.py lines 284-303). -/
def rock_hardness (p_wave_velocity rock_density : ℚ) : RockHardness :=
  if p_wave_velocity < 2.5 ∧ rock_density < 2.2 then .VerySoft
  else if p_wave_velocity < 3.5 ∧ rock_density < 2.5 then .Soft
  else if p_wave_velocity < 4.5 ∧ rock_density < 2.7 then .Medium
  else if p_wave_velocity < 5.5 ∧ rock_density < 2.9 then .Hard
  else .VeryHard

/-- The area-containment property asserted by the specification for both
pattern functions: every returned hole coordinate (x, y) satisfies
0 ≤ x ≤ length and 0 ≤ y ≤ width. -/
def pattern_in_bounds (length width burden spacing : ℚ)
    (num_holes : Option ℤ) : Prop :=
  (∀ x ∈ (calculate_square_pattern length width burden spacing
      num_holes).hole_positions_x, 0 ≤ x ∧ x ≤ length) ∧
  (∀ y ∈ (calculate_square_pattern length width burden spacing
      num_holes).hole_positions_y, 0 ≤ y ∧ y ≤ width) ∧
  (∀ x ∈ (calculate_staggered_pattern length width burden spacing
      num_holes).hole_positions_x, 0 ≤ x ∧ x ≤ length) ∧
  (∀ y ∈ (calculate_staggered_pattern length width burden spacing
      num_holes).hole_positions_y, 0 ≤ y ∧ y ≤ width)

/-- The staggered-offset property asserted by the specification, stated over
the per-row x-position lists used by `calculate_staggered_pattern`: in every
odd-indexed (0-based) row of the layout, every hole's x coordinate equals
some unshifted (even-row) x coordinate plus exactly spacing/2. -/
def staggered_offset_claim (length width burden spacing : ℚ) : Prop :=
  ∀ i < pattern_num_rows width burden, i % 2 = 1 →
    ∀ x ∈ staggered_row_xs length spacing (num_holes_per_row_odd length spacing)
      (num_holes_per_row_even length spacing) i,
      ∃ x0 ∈ staggered_row_xs length spacing
        (num_holes_per_row_odd length spacing)
        (num_holes_per_row_even length spacing) 0, x = x0 + spacing / 2

/-! ### Helper lemmas -/

theorem pyInt_of_nonneg {q : ℚ} (h : 0 ≤ q) : pyInt q = ⌊q⌋ := by
  simp [pyInt, h]

theorem linspace_length (a b : ℚ) (n : ℕ) : (linspace a b n).length = n := by
  unfold linspace
  split
  · simp [*]
  · split
    · simp [*]
    · rw [List.length_map, List.length_range]

theorem linspace_head (a b : ℚ) (n : ℕ) (hn : n ≠ 0) :
    (linspace a b n).head? = some a := by
  unfold linspace
  rw [if_neg hn]
  split
  · rfl
  · rename_i h1
    obtain ⟨m, rfl⟩ : ∃ m, n = m + 1 := ⟨n - 1, (Nat.succ_pred_eq_of_pos (Nat.pos_of_ne_zero hn)).symm⟩
    rw [List.range_succ_eq_map]
    simp

theorem mem_linspace_bounds {a b : ℚ} {n : ℕ} {x : ℚ} (hx : x ∈ linspace a b n) :
    min a b ≤ x ∧ x ≤ max a b := by
  unfold linspace at hx
  split at hx
  · simp at hx
  · split at hx
    · simp at hx
      subst hx
      exact ⟨min_le_left _ _, le_max_left _ _⟩
    · rename_i h0 h1
      rw [List.mem_map] at hx
      obtain ⟨i, hi, rfl⟩ := hx
      rw [List.mem_range] at hi
      have hn2 : 2 ≤ n := by omega
      have hden : (1 : ℚ) ≤ (n : ℚ) - 1 := by
        have : (2 : ℚ) ≤ (n : ℚ) := by exact_mod_cast hn2
        linarith
      have hden0 : (0 : ℚ) < (n : ℚ) - 1 := by linarith
      have ht0 : 0 ≤ (i : ℚ) / ((n : ℚ) - 1) :=
        div_nonneg (by positivity) (le_of_lt hden0)
      have ht1 : (i : ℚ) / ((n : ℚ) - 1) ≤ 1 := by
        rw [div_le_one hden0]
        have h3 : i + 1 ≤ n := hi
        have h4 : ((i : ℚ)) + 1 ≤ (n : ℚ) := by exact_mod_cast h3
        linarith
      have hx : a + (i : ℚ) * ((b - a) / ((n : ℚ) - 1)) =
          a + ((i : ℚ) / ((n : ℚ) - 1)) * (b - a) := by ring
      rw [hx]
      set t := (i : ℚ) / ((n : ℚ) - 1) with hdef
      rcases le_total a b with hab | hab
      · rw [min_eq_left hab, max_eq_right hab]
        constructor <;> nlinarith
      · rw [min_eq_right hab, max_eq_left hab]
        constructor <;> nlinarith

theorem emitHoles_none (l : List (ℚ × ℚ)) (c : ℤ) : emitHoles none l c = l := by
  induction l generalizing c with
  | nil => rfl
  | cons p rest ih => simp [emitHoles, ih]

theorem emitHoles_some (m : ℤ) (l : List (ℚ × ℚ)) (c : ℤ) :
    emitHoles (some m) l c = l.take (max (m - c) 1).toNat := by
  induction l generalizing c with
  | nil => simp [emitHoles]
  | cons p rest ih =>
      simp only [emitHoles]
      by_cases h : c + 1 ≥ m
      · rw [if_pos h]
        have : (max (m - c) 1).toNat = 1 := by omega
        rw [this]
        simp
      · rw [if_neg h]
        rw [ih (c + 1)]
        have h2 : (max (m - c) 1).toNat = (max (m - (c + 1)) 1).toNat + 1 := by omega
        rw [h2]
        rfl

theorem mem_emitHoles {k : Option ℤ} {l : List (ℚ × ℚ)} {c : ℤ} {p : ℚ × ℚ}
    (hp : p ∈ emitHoles k l c) : p ∈ l := by
  cases k with
  | none => rwa [emitHoles_none] at hp
  | some m =>
      rw [emitHoles_some] at hp
      exact List.take_subset _ _ hp

theorem pattern_num_rows_pos (width burden : ℚ) : 1 ≤ pattern_num_rows width burden := by
  unfold pattern_num_rows
  omega

theorem square_holes_per_row_pos (length spacing : ℚ) :
    1 ≤ square_holes_per_row length spacing := by
  unfold square_holes_per_row
  omega

theorem num_holes_per_row_odd_pos (length spacing : ℚ) :
    1 ≤ num_holes_per_row_odd length spacing := by
  unfold num_holes_per_row_odd
  omega

theorem num_holes_per_row_even_pos (length spacing : ℚ) :
    1 ≤ num_holes_per_row_even length spacing := by
  unfold num_holes_per_row_even
  omega

theorem length_flatMap_eq_sum {α β : Type} (l : List α) (f : α → List β) :
    (l.flatMap f).length = (l.map (fun a => (f a).length)).sum := by
  induction l with
  | nil => rfl
  | cons a t ih => simp [ih]

theorem length_flatMap_const {α β : Type} (l : List α) (f : α → List β) (n : ℕ)
    (h : ∀ a ∈ l, (f a).length = n) : (l.flatMap f).length = l.length * n := by
  induction l with
  | nil => simp
  | cons a t ih =>
      rw [List.flatMap_cons, List.length_append, h a (by simp),
        ih (fun x hx => h x (by simp [hx])), List.length_cons]
      ring

theorem flatMap_ne_nil {α β : Type} {l : List α} {f : α → List β} {a : α}
    (ha : a ∈ l) (hf : f a ≠ []) : l.flatMap f ≠ [] := by
  obtain ⟨b, hb⟩ := List.exists_mem_of_ne_nil _ hf
  exact List.ne_nil_of_mem (List.mem_flatMap.mpr ⟨a, ha, hb⟩)

theorem staggered_row_xs_length (length spacing : ℚ) (nO nE i : ℕ) :
    (staggered_row_xs length spacing nO nE i).length =
      if i % 2 = 0 then nO else nE := by
  unfold staggered_row_xs
  split <;> simp [linspace_length, *]

theorem length_square_hole_pairs (length width burden spacing : ℚ) :
    (square_hole_pairs length width burden spacing).length =
      pattern_num_rows width burden * square_holes_per_row length spacing := by
  unfold square_hole_pairs
  rw [length_flatMap_const _ _ (square_holes_per_row length spacing)
    (fun y _ => by rw [List.length_map, linspace_length]), linspace_length]

theorem length_staggered_hole_pairs (length width burden spacing : ℚ) :
    (staggered_hole_pairs length width burden spacing).length =
      ((List.range (pattern_num_rows width burden)).map
        (fun i => if i % 2 = 0 then num_holes_per_row_odd length spacing
          else num_holes_per_row_even length spacing)).sum := by
  unfold staggered_hole_pairs
  rw [length_flatMap_eq_sum]
  set ys := linspace (burden / 2) (width - burden / 2)
    (pattern_num_rows width burden) with hys
  have hyslen : ys.length = pattern_num_rows width burden := by
    rw [hys, linspace_length]
  have hmap : ((List.range ys.length).zip ys).map
      (fun iy => ((staggered_row_xs length spacing
        (num_holes_per_row_odd length spacing)
        (num_holes_per_row_even length spacing) iy.1).map
          (fun x => (x, iy.2))).length) =
      ((List.range ys.length).zip ys).map
        ((fun i => if i % 2 = 0 then num_holes_per_row_odd length spacing
          else num_holes_per_row_even length spacing) ∘ Prod.fst) := by
    apply List.map_congr_left
    intro iy _
    simp [staggered_row_xs_length]
  rw [hmap, ← List.map_map, List.map_fst_zip _ _ (by rw [List.length_range]),
    hyslen]

theorem square_hole_pairs_ne_nil (length width burden spacing : ℚ) :
    square_hole_pairs length width burden spacing ≠ [] := by
  have h1 := pattern_num_rows_pos width burden
  have h2 := square_holes_per_row_pos length spacing
  have h := length_square_hole_pairs length width burden spacing
  intro hcon
  rw [hcon, List.length_nil] at h
  have h3 : 0 < pattern_num_rows width burden * square_holes_per_row length spacing :=
    Nat.mul_pos h1 h2
  omega

theorem staggered_hole_pairs_ne_nil (length width burden spacing : ℚ) :
    staggered_hole_pairs length width burden spacing ≠ [] := by
  have hrows := pattern_num_rows_pos width burden
  have hO := num_holes_per_row_odd_pos length spacing
  have hE := num_holes_per_row_even_pos length spacing
  simp only [staggered_hole_pairs]
  set ys := linspace (burden / 2) (width - burden / 2)
    (pattern_num_rows width burden) with hys
  have hyslen : ys.length = pattern_num_rows width burden := by
    rw [hys, linspace_length]
  have hzlen : ((List.range ys.length).zip ys).length =
      pattern_num_rows width burden := by
    rw [List.length_zip, List.length_range, min_self, hyslen]
  obtain ⟨iy, hiy⟩ := List.exists_mem_of_length_pos
    (show 0 < ((List.range ys.length).zip ys).length by rw [hzlen]; omega)
  apply flatMap_ne_nil hiy
  apply List.ne_nil_of_length_pos
  rw [List.length_map, staggered_row_xs_length]
  split <;> omega

theorem square_hole_pairs_mem {length width burden spacing : ℚ} {p : ℚ × ℚ}
    (hp : p ∈ square_hole_pairs length width burden spacing) :
    p.1 ∈ linspace (spacing / 2) (length - spacing / 2)
        (square_holes_per_row length spacing) ∧
    p.2 ∈ linspace (burden / 2) (width - burden / 2)
        (pattern_num_rows width burden) := by
  unfold square_hole_pairs at hp
  rw [List.mem_flatMap] at hp
  obtain ⟨y, hy, hp⟩ := hp
  rw [List.mem_map] at hp
  obtain ⟨x, hx, rfl⟩ := hp
  exact ⟨hx, hy⟩

theorem staggered_hole_pairs_mem {length width burden spacing : ℚ} {p : ℚ × ℚ}
    (hp : p ∈ staggered_hole_pairs length width burden spacing) :
    (∃ i, p.1 ∈ staggered_row_xs length spacing
      (num_holes_per_row_odd length spacing)
      (num_holes_per_row_even length spacing) i) ∧
    p.2 ∈ linspace (burden / 2) (width - burden / 2)
        (pattern_num_rows width burden) := by
  simp only [staggered_hole_pairs] at hp
  rw [List.mem_flatMap] at hp
  obtain ⟨iy, hiy, hp⟩ := hp
  rw [List.mem_map] at hp
  obtain ⟨x, hx, rfl⟩ := hp
  obtain ⟨i, y⟩ := iy
  exact ⟨⟨i, hx⟩, (List.of_mem_zip hiy).2⟩

theorem mem_linspace_range {a b c x : ℚ} {n : ℕ} (hx : x ∈ linspace a b n)
    (ha0 : 0 ≤ a) (hb0 : 0 ≤ b) (hac : a ≤ c) (hbc : b ≤ c) :
    0 ≤ x ∧ x ≤ c := by
  obtain ⟨h1, h2⟩ := mem_linspace_bounds hx
  constructor
  · calc (0 : ℚ) ≤ min a b := le_min ha0 hb0
      _ ≤ x := h1
  · calc x ≤ max a b := h2
      _ ≤ c := max_le hac hbc

/-- Square pattern with a non-degenerate geometry: the guard does not fire. -/
theorem calculate_square_pattern_pos (length width burden spacing : ℚ)
    (num_holes : Option ℤ) (hb : 0 < burden) (hs : 0 < spacing) :
    calculate_square_pattern length width burden spacing num_holes =
      ⟨(emitHoles num_holes (square_hole_pairs length width burden spacing) 0).map Prod.fst,
       (emitHoles num_holes (square_hole_pairs length width burden spacing) 0).map Prod.snd,
       pattern_num_rows width burden, square_holes_per_row length spacing⟩ := by
  unfold calculate_square_pattern
  rw [if_neg (by push_neg; constructor <;> linarith)]

/-- Staggered pattern with a non-degenerate geometry: the guard does not fire. -/
theorem calculate_staggered_pattern_pos (length width burden spacing : ℚ)
    (num_holes : Option ℤ) (hb : 0 < burden) (hs : 0 < spacing) :
    calculate_staggered_pattern length width burden spacing num_holes =
      ⟨(emitHoles num_holes (staggered_hole_pairs length width burden spacing) 0).map Prod.fst,
       (emitHoles num_holes (staggered_hole_pairs length width burden spacing) 0).map Prod.snd,
       pattern_num_rows width burden, num_holes_per_row_odd length spacing,
       num_holes_per_row_even length spacing⟩ := by
  unfold calculate_staggered_pattern
  rw [if_neg (by push_neg; constructor <;> linarith)]

/-! ### Claims -/

/-- C7: for holeDiameter = 200 mm the hole-design formulas yield
burden = 5.65 m, subdrilling = 2.26 m, stemming = 5.65 m, and for
benchHeight = 10 m, holeDepth = 12.26 m. -/
theorem formula_roundtrip_200mm :
    calculated_burden 200 = 5.65 ∧
    calculated_subdrilling 200 = 2.26 ∧
    calculated_stemming 200 = 5.65 ∧
    calculated_hole_depth 10 200 = 12.26 := by
  refine ⟨?_, ?_, ?_, ?_⟩ <;> norm_num [calculated_burden, calculated_subdrilling,
    calculated_stemming, calculated_hole_depth]

/-- C6: whenever burden ≤ 0 or spacing ≤ 0, both pattern functions return the
empty layout (empty coordinate lists, zero rows and holes per row), for any
`num_holes` argument; being total Lean functions, they raise no exception. -/
theorem degenerate_geometry_empty_layout (length width burden spacing : ℚ)
    (num_holes : Option ℤ) (h : burden ≤ 0 ∨ spacing ≤ 0) :
    calculate_square_pattern length width burden spacing num_holes =
      ⟨[], [], 0, 0⟩ ∧
    calculate_staggered_pattern length width burden spacing num_holes =
      ⟨[], [], 0, 0, 0⟩ := by
  constructor
  · rw [calculate_square_pattern, if_pos h]
  · rw [calculate_staggered_pattern, if_pos h]

/-- Witness for C6 at burden = 0. -/
theorem degenerate_geometry_empty_layout_witness :
    ((0 : ℚ) ≤ 0 ∨ (2 : ℚ) ≤ 0) ∧
    calculate_square_pattern 10 5 0 2 none = ⟨[], [], 0, 0⟩ ∧
    calculate_staggered_pattern 10 5 0 2 none = ⟨[], [], 0, 0, 0⟩ := by
  refine ⟨Or.inl le_rfl, ?_⟩
  exact degenerate_geometry_empty_layout 10 5 0 2 none (Or.inl le_rfl)

/-- C9: the rock classification is an ordered first-match ladder where both
conditions must hold jointly for every non-terminal band, and in particular
(pWaveVelocity = 3.0, rockDensity = 2.3) classifies as Soft while
(pWaveVelocity = 6.0, rockDensity = 3.0) classifies as VeryHard. -/
theorem rock_classification_ladder (p d : ℚ) :
    (rock_hardness p d = .VerySoft ↔ p < 2.5 ∧ d < 2.2) ∧
    (rock_hardness p d = .Soft ↔
      ¬(p < 2.5 ∧ d < 2.2) ∧ (p < 3.5 ∧ d < 2.5)) ∧
    (rock_hardness p d = .Medium ↔
      ¬(p < 2.5 ∧ d < 2.2) ∧ ¬(p < 3.5 ∧ d < 2.5) ∧ (p < 4.5 ∧ d < 2.7)) ∧
    (rock_hardness p d = .Hard ↔
      ¬(p < 2.5 ∧ d < 2.2) ∧ ¬(p < 3.5 ∧ d < 2.5) ∧ ¬(p < 4.5 ∧ d < 2.7) ∧
        (p < 5.5 ∧ d < 2.9)) ∧
    (rock_hardness p d = .VeryHard ↔
      ¬(p < 2.5 ∧ d < 2.2) ∧ ¬(p < 3.5 ∧ d < 2.5) ∧ ¬(p < 4.5 ∧ d < 2.7) ∧
        ¬(p < 5.5 ∧ d < 2.9)) ∧
    rock_hardness 3 2.3 = .Soft ∧
    rock_hardness 6 3 = .VeryHard := by
  have hsoft : rock_hardness 3 2.3 = .Soft := by
    unfold rock_hardness
    norm_num
  have hhard : rock_hardness 6 3 = .VeryHard := by
    unfold rock_hardness
    norm_num
  refine ⟨?_, ?_, ?_, ?_, ?_, hsoft, hhard⟩ <;>
    · unfold rock_hardness
      split_ifs <;> simp_all

/-- C8: with positive total explosive and positive blast volume, the two
powder-factor representations are exact reciprocals: their product is 1. -/
theorem powder_factor_symmetry (blast_volume total_explosive : ℚ)
    (hT : 0 < total_explosive) (hV : 0 < blast_volume) :
    powder_factor_vol_per_explosive blast_volume total_explosive *
      powder_factor_explosive_per_vol blast_volume total_explosive = 1 := by
  rw [powder_factor_vol_per_explosive, powder_factor_explosive_per_vol,
    if_pos hT, if_pos hV]
  field_simp

/-- Witness for C8 at blast volume 100 m³ and total explosive 50 kg. -/
theorem powder_factor_symmetry_witness :
    (0 : ℚ) < 50 ∧ (0 : ℚ) < 100 ∧
    powder_factor_vol_per_explosive 100 50 *
      powder_factor_explosive_per_vol 100 50 = 1 :=
  ⟨by norm_num, by norm_num,
    powder_factor_symmetry 100 50 (by norm_num) (by norm_num)⟩

/-- C2: the explosive column length is exactly
benchHeight + subdrilling − stemming with no clamping; it is negative
whenever stemming exceeds benchHeight + subdrilling, and the per-hole charge
equals density · π · d²/4 · columnLength (π being the source's `math.pi`
constant), so a negative column with positive density and nonzero diameter
yields a negative, reported charge mass. -/
theorem explosive_column_surfaced (bench_height subdrilling stemming
    hole_diameter_m explosive_density : ℚ)
    (hstem : bench_height + subdrilling < stemming)
    (hrho : 0 < explosive_density) (hd : hole_diameter_m ≠ 0) :
    explosive_column_length bench_height subdrilling stemming =
      bench_height + subdrilling - stemming ∧
    explosive_column_length bench_height subdrilling stemming < 0 ∧
    charge_per_hole explosive_density hole_diameter_m
        (explosive_column_length bench_height subdrilling stemming) =
      explosive_density * mathPi * hole_diameter_m ^ 2 / 4 *
        (bench_height + subdrilling - stemming) ∧
    charge_per_hole explosive_density hole_diameter_m
        (explosive_column_length bench_height subdrilling stemming) < 0 := by
  have hcol : explosive_column_length bench_height subdrilling stemming < 0 := by
    rw [explosive_column_length]
    linarith
  refine ⟨rfl, hcol, ?_, ?_⟩
  · rw [charge_per_hole, available_hole_volume, explosive_column_length]
    ring
  · rw [charge_per_hole, available_hole_volume]
    have hpi : 0 < mathPi := by norm_num [mathPi]
    have hd2 : 0 < hole_diameter_m ^ 2 := by positivity
    have hvol : mathPi * hole_diameter_m ^ 2 / 4 *
        explosive_column_length bench_height subdrilling stemming < 0 := by
      apply mul_neg_of_pos_of_neg _ hcol
      positivity
    exact mul_neg_of_pos_of_neg hrho hvol

/-- C1: for positive dimensions, burden and spacing, the square pattern has
rows = max(1, ⌊width/burden⌋) and holesPerRow = max(1, ⌊length/spacing⌋),
with hole centers linearly interpolated from burden/2 to width − burden/2
(rows axis) and from spacing/2 to length − spacing/2 (columns axis), emitted
in row-major order (outer loop over rows, inner over columns). -/
theorem square_pattern_matches_spec (length width burden spacing : ℚ)
    (hl : 0 < length) (hw : 0 < width) (hb : 0 < burden) (hs : 0 < spacing) :
    (calculate_square_pattern length width burden spacing none).num_rows =
      (max 1 ⌊width / burden⌋).toNat ∧
    (calculate_square_pattern length width burden spacing none).holes_per_row =
      (max 1 ⌊length / spacing⌋).toNat ∧
    (calculate_square_pattern length width burden spacing none).hole_positions_x =
      (linspace (burden / 2) (width - burden / 2)
          ((max 1 ⌊width / burden⌋).toNat)).flatMap
        (fun _ => linspace (spacing / 2) (length - spacing / 2)
          ((max 1 ⌊length / spacing⌋).toNat)) ∧
    (calculate_square_pattern length width burden spacing none).hole_positions_y =
      (linspace (burden / 2) (width - burden / 2)
          ((max 1 ⌊width / burden⌋).toNat)).flatMap
        (fun y => List.replicate ((max 1 ⌊length / spacing⌋).toNat) y) := by
  have hwb : pyInt (width / burden) = ⌊width / burden⌋ :=
    pyInt_of_nonneg (div_nonneg hw.le hb.le)
  have hls : pyInt (length / spacing) = ⌊length / spacing⌋ :=
    pyInt_of_nonneg (div_nonneg hl.le hs.le)
  have hrows : pattern_num_rows width burden = (max 1 ⌊width / burden⌋).toNat := by
    rw [pattern_num_rows, hwb]
  have hcols : square_holes_per_row length spacing =
      (max 1 ⌊length / spacing⌋).toNat := by
    rw [square_holes_per_row, hls]
  rw [calculate_square_pattern_pos length width burden spacing none hb hs]
  refine ⟨hrows, hcols, ?_, ?_⟩
  · show (emitHoles none (square_hole_pairs length width burden spacing) 0).map
        Prod.fst = _
    rw [emitHoles_none, square_hole_pairs, List.map_flatMap, hrows, hcols]
    congr 1
    funext y
    simp only [List.map_map]
    exact List.map_id'' (fun x => rfl) _
  · show (emitHoles none (square_hole_pairs length width burden spacing) 0).map
        Prod.snd = _
    rw [emitHoles_none, square_hole_pairs, List.map_flatMap, hrows, hcols]
    congr 1
    funext y
    simp only [List.map_map]
    have h : (Prod.snd ∘ fun (x : ℚ) => (x, y)) = fun (_ : ℚ) => y := by
      funext x
      rfl
    rw [h, List.map_const', linspace_length]

/-- Witness for C1 at length 10, width 6, burden 2, spacing 2. -/
theorem square_pattern_matches_spec_witness :
    (0 : ℚ) < 10 ∧ (0 : ℚ) < 6 ∧ (0 : ℚ) < 2 ∧
    ((calculate_square_pattern 10 6 2 2 none).num_rows =
        (max 1 ⌊(6 : ℚ) / 2⌋).toNat ∧
      (calculate_square_pattern 10 6 2 2 none).holes_per_row =
        (max 1 ⌊(10 : ℚ) / 2⌋).toNat ∧
      (calculate_square_pattern 10 6 2 2 none).hole_positions_x =
        (linspace ((2 : ℚ) / 2) (6 - 2 / 2) ((max 1 ⌊(6 : ℚ) / 2⌋).toNat)).flatMap
          (fun _ => linspace ((2 : ℚ) / 2) (10 - 2 / 2)
            ((max 1 ⌊(10 : ℚ) / 2⌋).toNat)) ∧
      (calculate_square_pattern 10 6 2 2 none).hole_positions_y =
        (linspace ((2 : ℚ) / 2) (6 - 2 / 2) ((max 1 ⌊(6 : ℚ) / 2⌋).toNat)).flatMap
          (fun y => List.replicate ((max 1 ⌊(10 : ℚ) / 2⌋).toNat) y)) :=
  ⟨by norm_num, by norm_num, by norm_num,
    square_pattern_matches_spec 10 6 2 2 (by norm_num) (by norm_num) (by norm_num)
      (by norm_num)⟩

/-- C10: with a non-degenerate geometry, a non-None `num_holes ≤ 0` still
yields exactly one hole in both pattern functions, because the truncation
test `len(...) >= num_holes` runs only after the first append. -/
theorem nonpositive_max_holes_one_hole (length width burden spacing : ℚ)
    (k : ℤ) (hb : 0 < burden) (hs : 0 < spacing) (hk : k ≤ 0) :
    (calculate_square_pattern length width burden spacing (some k)).hole_positions_x.length = 1 ∧
    (calculate_square_pattern length width burden spacing (some k)).hole_positions_y.length = 1 ∧
    (calculate_staggered_pattern length width burden spacing (some k)).hole_positions_x.length = 1 ∧
    (calculate_staggered_pattern length width burden spacing (some k)).hole_positions_y.length = 1 := by
  have htake : (max (k - 0) 1).toNat = 1 := by omega
  have hsq : 0 < (square_hole_pairs length width burden spacing).length :=
    List.length_pos.mpr (square_hole_pairs_ne_nil length width burden spacing)
  have hst : 0 < (staggered_hole_pairs length width burden spacing).length :=
    List.length_pos.mpr (staggered_hole_pairs_ne_nil length width burden spacing)
  rw [calculate_square_pattern_pos length width burden spacing (some k) hb hs,
    calculate_staggered_pattern_pos length width burden spacing (some k) hb hs]
  simp only [emitHoles_some, htake, List.length_map, List.length_take]
  refine ⟨?_, ?_, ?_, ?_⟩ <;> omega

/-- Witness for C10 at length 10, width 5, burden 2, spacing 2, num_holes = 0. -/
theorem nonpositive_max_holes_one_hole_witness :
    (0 : ℚ) < 2 ∧ (0 : ℤ) ≤ 0 ∧
    ((calculate_square_pattern 10 5 2 2 (some 0)).hole_positions_x.length = 1 ∧
      (calculate_square_pattern 10 5 2 2 (some 0)).hole_positions_y.length = 1 ∧
      (calculate_staggered_pattern 10 5 2 2 (some 0)).hole_positions_x.length = 1 ∧
      (calculate_staggered_pattern 10 5 2 2 (some 0)).hole_positions_y.length = 1) :=
  ⟨by norm_num, le_rfl,
    nonpositive_max_holes_one_hole 10 5 2 2 0 (by norm_num) (by norm_num) le_rfl⟩

/-- C5: for 1 ≤ k strictly below a pattern function's own natural hole
count, calling that function with `num_holes = k` returns coordinate arrays
of length exactly k equal to the first k elements of its untruncated
(`num_holes = None`) result.  The two pattern functions are covered by
independent implications, each hypothesised only on that function's own
natural count. -/
theorem truncation_is_prefix_of_untruncated (length width burden spacing : ℚ)
    (k : ℕ) (hb : 0 < burden) (hs : 0 < spacing) (hk : 1 ≤ k) :
    (k < (calculate_square_pattern length width burden spacing none).hole_positions_x.length →
      (calculate_square_pattern length width burden spacing (some (k : ℤ))).hole_positions_x =
        ((calculate_square_pattern length width burden spacing none).hole_positions_x).take k ∧
      (calculate_square_pattern length width burden spacing (some (k : ℤ))).hole_positions_y =
        ((calculate_square_pattern length width burden spacing none).hole_positions_y).take k ∧
      (calculate_square_pattern length width burden spacing (some (k : ℤ))).hole_positions_x.length = k ∧
      (calculate_square_pattern length width burden spacing (some (k : ℤ))).hole_positions_y.length = k) ∧
    (k < (calculate_staggered_pattern length width burden spacing none).hole_positions_x.length →
      (calculate_staggered_pattern length width burden spacing (some (k : ℤ))).hole_positions_x =
        ((calculate_staggered_pattern length width burden spacing none).hole_positions_x).take k ∧
      (calculate_staggered_pattern length width burden spacing (some (k : ℤ))).hole_positions_y =
        ((calculate_staggered_pattern length width burden spacing none).hole_positions_y).take k ∧
      (calculate_staggered_pattern length width burden spacing (some (k : ℤ))).hole_positions_x.length = k ∧
      (calculate_staggered_pattern length width burden spacing (some (k : ℤ))).hole_positions_y.length = k) := by
  have htake : (max ((k : ℤ) - 0) 1).toNat = k := by omega
  constructor
  · intro hksq
    rw [calculate_square_pattern_pos length width burden spacing none hb hs] at hksq
    simp only [emitHoles_none, List.length_map] at hksq
    rw [calculate_square_pattern_pos length width burden spacing (some (k : ℤ)) hb hs,
      calculate_square_pattern_pos length width burden spacing none hb hs]
    simp only [emitHoles_some, emitHoles_none, htake, List.map_take,
      List.length_take, List.length_map]
    exact ⟨trivial, trivial, by omega, by omega⟩
  · intro hkst
    rw [calculate_staggered_pattern_pos length width burden spacing none hb hs] at hkst
    simp only [emitHoles_none, List.length_map] at hkst
    rw [calculate_staggered_pattern_pos length width burden spacing (some (k : ℤ)) hb hs,
      calculate_staggered_pattern_pos length width burden spacing none hb hs]
    simp only [emitHoles_some, emitHoles_none, htake, List.map_take,
      List.length_take, List.length_map]
    exact ⟨trivial, trivial, by omega, by omega⟩

/-- Witness for C5 at length 10, width 5, burden 2, spacing 2, k = 3
(natural count 10 for both patterns). -/
theorem truncation_is_prefix_of_untruncated_witness :
    (0 : ℚ) < 2 ∧ (1 : ℕ) ≤ 3 ∧
    3 < (calculate_square_pattern 10 5 2 2 none).hole_positions_x.length ∧
    3 < (calculate_staggered_pattern 10 5 2 2 none).hole_positions_x.length ∧
    ((calculate_square_pattern 10 5 2 2 (some (3 : ℤ))).hole_positions_x =
        ((calculate_square_pattern 10 5 2 2 none).hole_positions_x).take 3 ∧
      (calculate_square_pattern 10 5 2 2 (some (3 : ℤ))).hole_positions_y =
        ((calculate_square_pattern 10 5 2 2 none).hole_positions_y).take 3 ∧
      (calculate_square_pattern 10 5 2 2 (some (3 : ℤ))).hole_positions_x.length = 3 ∧
      (calculate_square_pattern 10 5 2 2 (some (3 : ℤ))).hole_positions_y.length = 3 ∧
      (calculate_staggered_pattern 10 5 2 2 (some (3 : ℤ))).hole_positions_x =
        ((calculate_staggered_pattern 10 5 2 2 none).hole_positions_x).take 3 ∧
      (calculate_staggered_pattern 10 5 2 2 (some (3 : ℤ))).hole_positions_y =
        ((calculate_staggered_pattern 10 5 2 2 none).hole_positions_y).take 3 ∧
      (calculate_staggered_pattern 10 5 2 2 (some (3 : ℤ))).hole_positions_x.length = 3 ∧
      (calculate_staggered_pattern 10 5 2 2 (some (3 : ℤ))).hole_positions_y.length = 3) := by
  have hrows : pattern_num_rows 5 2 = 2 := by
    rw [pattern_num_rows, pyInt_of_nonneg (by norm_num),
      show ⌊(5 : ℚ) / 2⌋ = 2 by rw [Int.floor_eq_iff]; norm_num]
    decide
  have hcols : square_holes_per_row 10 2 = 5 := by
    rw [square_holes_per_row, pyInt_of_nonneg (by norm_num),
      show ⌊(10 : ℚ) / 2⌋ = 5 by rw [Int.floor_eq_iff]; norm_num]
    decide
  have hO : num_holes_per_row_odd 10 2 = 5 := by
    rw [num_holes_per_row_odd, pyInt_of_nonneg (by norm_num),
      show ⌊((10 : ℚ) - 2 / 2) / 2⌋ = 4 by rw [Int.floor_eq_iff]; norm_num]
    decide
  have hE : num_holes_per_row_even 10 2 = 5 := by
    rw [num_holes_per_row_even, pyInt_of_nonneg (by norm_num),
      show ⌊((10 : ℚ) - 2) / 2⌋ = 4 by rw [Int.floor_eq_iff]; norm_num]
    decide
  have hsq : (calculate_square_pattern 10 5 2 2 none).hole_positions_x.length = 10 := by
    rw [calculate_square_pattern_pos 10 5 2 2 none (by norm_num) (by norm_num)]
    simp only [emitHoles_none, List.length_map]
    rw [length_square_hole_pairs, hrows, hcols]
  have hst : (calculate_staggered_pattern 10 5 2 2 none).hole_positions_x.length = 10 := by
    rw [calculate_staggered_pattern_pos 10 5 2 2 none (by norm_num) (by norm_num)]
    simp only [emitHoles_none, List.length_map]
    rw [length_staggered_hole_pairs, hrows, hO, hE]
    decide
  refine ⟨by norm_num, by norm_num, by omega, by omega, ?_⟩
  have h := truncation_is_prefix_of_untruncated 10 5 2 2 3 (by norm_num)
    (by norm_num) (by norm_num)
  obtain ⟨a1, a2, a3, a4⟩ := h.1 (by omega)
  obtain ⟨b1, b2, b3, b4⟩ := h.2 (by omega)
  exact ⟨a1, a2, a3, a4, b1, b2, b3, b4⟩

/-- Witness for C2 at benchHeight = 10, subdrilling = 2, stemming = 20,
diameter 0.2 m, density 850 kg/m³. -/
theorem explosive_column_surfaced_witness :
    (10 : ℚ) + 2 < 20 ∧ (0 : ℚ) < 850 ∧ (1 / 5 : ℚ) ≠ 0 ∧
    (explosive_column_length 10 2 20 = 10 + 2 - 20 ∧
      explosive_column_length 10 2 20 < 0 ∧
      charge_per_hole 850 (1 / 5) (explosive_column_length 10 2 20) =
        850 * mathPi * (1 / 5) ^ 2 / 4 * (10 + 2 - 20) ∧
      charge_per_hole 850 (1 / 5) (explosive_column_length 10 2 20) < 0) :=
  ⟨by norm_num, by norm_num, by norm_num,
    explosive_column_surfaced 10 2 20 (1 / 5) 850 (by norm_num) (by norm_num)
      (by norm_num)⟩

/-- C4 counterexample: at length 10, width 1, burden 3, spacing 2 (burden
and spacing positive), the single row's y coordinate is burden/2 = 3/2,
which exceeds width = 1, so the claimed containment fails. -/
theorem area_containment_counterexample : ¬ pattern_in_bounds 10 1 3 2 none := by
  intro h
  obtain ⟨-, hy, -, -⟩ := h
  have hrows : pattern_num_rows 1 3 = 1 := by
    rw [pattern_num_rows, pyInt_of_nonneg (by norm_num),
      show ⌊(1 : ℚ) / 3⌋ = 0 by rw [Int.floor_eq_iff]; norm_num]
    decide
  obtain ⟨x, hx⟩ := List.exists_mem_of_length_pos
    (show 0 < (linspace ((2 : ℚ) / 2) (10 - 2 / 2)
        (square_holes_per_row 10 2)).length by
      rw [linspace_length]
      have := square_holes_per_row_pos 10 2
      omega)
  have hmem : (3 / 2 : ℚ) ∈
      (calculate_square_pattern 10 1 3 2 none).hole_positions_y := by
    rw [calculate_square_pattern_pos 10 1 3 2 none (by norm_num) (by norm_num)]
    show (3 / 2 : ℚ) ∈ (emitHoles none (square_hole_pairs 10 1 3 2) 0).map Prod.snd
    rw [emitHoles_none, square_hole_pairs, List.mem_map]
    refine ⟨(x, 3 / 2), ?_, rfl⟩
    rw [List.mem_flatMap]
    refine ⟨3 / 2, ?_, ?_⟩
    · rw [hrows]
      show (3 / 2 : ℚ) ∈ linspace ((3 : ℚ) / 2) (1 - 3 / 2) 1
      norm_num [linspace]
    · rw [List.mem_map]
      exact ⟨x, hx, rfl⟩
  have hle : (3 / 2 : ℚ) ≤ 1 := (hy _ hmem).2
  norm_num at hle

/-- C4 (amended): if, in addition to burden > 0 and spacing > 0, burden ≤
width and spacing ≤ length, then every coordinate returned by either
pattern function (for any num_holes) lies in [0, length] × [0, width]. -/
theorem area_containment_amended (length width burden spacing : ℚ)
    (num_holes : Option ℤ) (hb : 0 < burden) (hs : 0 < spacing)
    (hbw : burden ≤ width) (hsl : spacing ≤ length) :
    pattern_in_bounds length width burden spacing num_holes := by
  have hx_bounds : ∀ x ∈ linspace (spacing / 2) (length - spacing / 2)
      (square_holes_per_row length spacing), 0 ≤ x ∧ x ≤ length := by
    intro x hx
    exact mem_linspace_range hx (by linarith) (by linarith) (by linarith)
      (by linarith)
  have hy_bounds : ∀ y ∈ linspace (burden / 2) (width - burden / 2)
      (pattern_num_rows width burden), 0 ≤ y ∧ y ≤ width := by
    intro y hy
    exact mem_linspace_range hy (by linarith) (by linarith) (by linarith)
      (by linarith)
  have hrow_bounds : ∀ (i : ℕ), ∀ x ∈ staggered_row_xs length spacing
      (num_holes_per_row_odd length spacing)
      (num_holes_per_row_even length spacing) i, 0 ≤ x ∧ x ≤ length := by
    intro i x hx
    rw [staggered_row_xs] at hx
    split at hx
    · exact mem_linspace_range hx (by linarith) (by linarith) (by linarith)
        (by linarith)
    · exact mem_linspace_range hx (by linarith) (by linarith) (by linarith)
        (by linarith)
  refine ⟨?_, ?_, ?_, ?_⟩
  · intro x hx
    rw [calculate_square_pattern_pos length width burden spacing num_holes hb hs] at hx
    simp only [List.mem_map] at hx
    obtain ⟨p, hp, rfl⟩ := hx
    exact hx_bounds _ (square_hole_pairs_mem (mem_emitHoles hp)).1
  · intro y hy
    rw [calculate_square_pattern_pos length width burden spacing num_holes hb hs] at hy
    simp only [List.mem_map] at hy
    obtain ⟨p, hp, rfl⟩ := hy
    exact hy_bounds _ (square_hole_pairs_mem (mem_emitHoles hp)).2
  · intro x hx
    rw [calculate_staggered_pattern_pos length width burden spacing num_holes hb hs] at hx
    simp only [List.mem_map] at hx
    obtain ⟨p, hp, rfl⟩ := hx
    obtain ⟨⟨i, hxi⟩, -⟩ := staggered_hole_pairs_mem (mem_emitHoles hp)
    exact hrow_bounds i _ hxi
  · intro y hy
    rw [calculate_staggered_pattern_pos length width burden spacing num_holes hb hs] at hy
    simp only [List.mem_map] at hy
    obtain ⟨p, hp, rfl⟩ := hy
    exact hy_bounds _ (staggered_hole_pairs_mem (mem_emitHoles hp)).2

/-- Witness for the amended C4 at length 10, width 5, burden 2, spacing 2. -/
theorem area_containment_amended_witness :
    (0 : ℚ) < 2 ∧ (2 : ℚ) ≤ 5 ∧ (2 : ℚ) ≤ 10 ∧
    pattern_in_bounds 10 5 2 2 none :=
  ⟨by norm_num, by norm_num, by norm_num,
    area_containment_amended 10 5 2 2 none (by norm_num) (by norm_num)
      (by norm_num) (by norm_num)⟩

/-- C3 counterexample: at length 10, width 4, burden 2, spacing 2, the
staggered layout has rows [0, 1]; row 1 (odd) has x positions
linspace(2, 8, 5) = [2, 7/2, 5, 13/2, 8] while the unshifted row-0
positions are linspace(1, 9, 5) = [1, 3, 5, 7, 9]; the hole at x = 7/2 is
not any unshifted x plus spacing/2 = 1, because the two rows use different
interpolation steps. -/
theorem staggered_offset_counterexample : ¬ staggered_offset_claim 10 4 2 2 := by
  intro h
  have hrows : pattern_num_rows 4 2 = 2 := by
    rw [pattern_num_rows, pyInt_of_nonneg (by norm_num),
      show ⌊(4 : ℚ) / 2⌋ = 2 by rw [Int.floor_eq_iff]; norm_num]
    decide
  have hO : num_holes_per_row_odd 10 2 = 5 := by
    rw [num_holes_per_row_odd, pyInt_of_nonneg (by norm_num),
      show ⌊((10 : ℚ) - 2 / 2) / 2⌋ = 4 by rw [Int.floor_eq_iff]; norm_num]
    decide
  have hE : num_holes_per_row_even 10 2 = 5 := by
    rw [num_holes_per_row_even, pyInt_of_nonneg (by norm_num),
      show ⌊((10 : ℚ) - 2) / 2⌋ = 4 by rw [Int.floor_eq_iff]; norm_num]
    decide
  have hx : (7 / 2 : ℚ) ∈ staggered_row_xs 10 2 (num_holes_per_row_odd 10 2)
      (num_holes_per_row_even 10 2) 1 := by
    rw [staggered_row_xs, if_neg (by decide), hE]
    rw [linspace, if_neg (by decide), if_neg (by decide), List.mem_map]
    refine ⟨1, by decide, ?_⟩
    norm_num
  obtain ⟨x0, hx0, heq⟩ := h 1 (by rw [hrows]; norm_num) (by decide) _ hx
  rw [staggered_row_xs, if_pos (by decide), hO] at hx0
  rw [linspace, if_neg (by decide), if_neg (by decide), List.mem_map] at hx0
  obtain ⟨i, hi, rfl⟩ := hx0
  rw [List.mem_range] at hi
  interval_cases i <;> norm_num at heq

/-- C3 (amended): in every odd-indexed row the FIRST hole's x coordinate
equals the first unshifted (even-row) x coordinate plus exactly spacing/2
(the even-row list starts at spacing/2 and the odd-row list at spacing);
holes beyond the first are in general not offset by spacing/2, because odd
and even rows are interpolated with different steps. -/
theorem staggered_offset_first_hole (length spacing : ℚ) (i : ℕ)
    (hi : i % 2 = 1) :
    (staggered_row_xs length spacing (num_holes_per_row_odd length spacing)
        (num_holes_per_row_even length spacing) i).head? =
      ((staggered_row_xs length spacing (num_holes_per_row_odd length spacing)
        (num_holes_per_row_even length spacing) 0).head?).map
          (fun x0 => x0 + spacing / 2) := by
  rw [staggered_row_xs, if_neg (by omega), staggered_row_xs, if_pos rfl,
    linspace_head _ _ _ (by have := num_holes_per_row_even_pos length spacing; omega),
    linspace_head _ _ _ (by have := num_holes_per_row_odd_pos length spacing; omega)]
  simp only [Option.map_some']
  norm_num

/-- Witness for the amended C3 at length 10, spacing 2, row index 1. -/
theorem staggered_offset_first_hole_witness :
    1 % 2 = 1 ∧
    (staggered_row_xs 10 2 (num_holes_per_row_odd 10 2)
        (num_holes_per_row_even 10 2) 1).head? =
      ((staggered_row_xs 10 2 (num_holes_per_row_odd 10 2)
        (num_holes_per_row_even 10 2) 0).head?).map (fun x0 => x0 + 2 / 2) :=
  ⟨rfl, staggered_offset_first_hole 10 2 1 rfl⟩
